import Mathlib

/-!
Shallow embedding of the plasmid redesign tool (`Assignment1_sol.py`).

Sequences, pattern strings, enzyme names, design-file lines and keys are all
modelled as `List Char`.  Python `set` values are modelled as `Finset`;
Python's unbounded `int` as `Nat` (no index in this program can go negative);
Python `float` GC fractions as exact rationals `ℚ` (`(g + c) / window` is
computed exactly here, while CPython rounds to the nearest double; for the
comparisons the program makes — fractions with the common denominator
`window` — the two agree whenever the division is exact enough, and the
rational model is how the spec reads the code).
-/

namespace Plasmid

/-- The module-level table `RESTRICTION_SITES` (a Python `dict`; CPython
dicts iterate in insertion order, which the list order reproduces). -/
def RESTRICTION_SITES : List (List Char × List Char) :=
  [("EcoRI".toList,  "GAATTC".toList),
   ("BamHI".toList,  "GGATCC".toList),
   ("HindIII".toList,"AAGCTT".toList),
   ("PstI".toList,   "CTGCAG".toList),
   ("KpnI".toList,   "GGTACC".toList),
   ("SacI".toList,   "GAGCTC".toList),
   ("SalI".toList,   "GTCGAC".toList),
   ("XbaI".toList,   "TCTAGA".toList),
   ("NotI".toList,   "GCGGCCGC".toList),
   ("SmaI".toList,   "CCCGGG".toList)]

/-! ### Python string primitives used by the program -/

/-- The ASCII whitespace characters stripped by Python's `str.strip()`
(the program's inputs are ASCII, so the Unicode cases are irrelevant). -/
def isPySpace (c : Char) : Bool :=
  c = ' ' || c = '\t' || c = '\n' || c = '\x0d' || c = '\x0b' || c = '\x0c'

/-- Python `str.strip()`: drop leading and trailing whitespace. -/
def pyStrip (l : List Char) : List Char :=
  ((l.dropWhile isPySpace).reverse.dropWhile isPySpace).reverse

/-- Python `str.split(",")`: split on every comma; `"".split(",") == [""]`. -/
def splitOnComma : List Char → List (List Char)
  | [] => [[]]
  | c :: rest =>
    if c = ',' then [] :: splitOnComma rest
    else
      match splitOnComma rest with
      | [] => [[c]]
      | h :: t => (c :: h) :: t

/-- `pat` occurs in `seq` at position `i` (the occurrence fits inside the
string and matches character for character). -/
def occursAt (seq pat : List Char) (i : Nat) : Bool :=
  decide (i + pat.length ≤ seq.length) && decide ((seq.drop i).take pat.length = pat)

/-- Scan positions `i, i+1, …` (at most `fuel` of them) for the first
occurrence of `pat`. -/
def findFromGo (seq pat : List Char) : Nat → Nat → Option Nat
  | _, 0 => none
  | i, fuel + 1 =>
    if occursAt seq pat i then some i else findFromGo seq pat (i + 1) fuel

/-- Python `seq.find(pat, start)` (with `none` for `-1`), for a nonempty
`pat`: the least `i ≥ start` at which `pat` occurs.  The budget
`seq.length + 1 - start` covers every candidate position `start … length`.
(On an empty `pat` CPython's `find` returns `start`, on which the caller's
`while` loop below would never terminate; the embedding returns `none`
there, so an empty pattern is a no-op instead of a divergence.) -/
def findFrom (seq pat : List Char) (start : Nat) : Option Nat :=
  if pat.isEmpty then none
  else findFromGo seq pat start (seq.length + 1 - start)

/-! ### `remove_disallowed_sites` -/

/-- The overlap test of lines 117–120: the occurrence `[idx, idx+|site|)`
overlaps some protected interval `(start, end)` iff
`idx < end ∧ idx + |site| > start`. -/
def overlapsProtected (prot : List (Nat × Nat)) (idx len : Nat) : Bool :=
  prot.any fun r => decide (idx < r.2) && decide (idx + len > r.1)

/-- The inner `while True` loop of `remove_disallowed_sites` for one
(disallowed) `site`: find the next occurrence from the cursor `searchPos`;
if it overlaps a protected interval, advance the cursor one step past the
occurrence start; otherwise delete the occurrence (the cursor is left
unchanged, so a match formed by the concatenation of the flanks is found).
Besides the final sequence the model returns the trace of deletions, each
as `(index at deletion time, length deleted)`.

The loop is driven by explicit fuel because Lean requires a termination
argument: every iteration either shortens the sequence by `|site| ≥ 1` or
increases the cursor (which stays `≤ length`), so the potential
`2*length + 1 - searchPos` strictly decreases and the fuel
`2*length + 2` supplied by `redactAll` below is never exhausted. -/
def sitePass (site : List Char) (prot : List (Nat × Nat)) :
    Nat → List Char → Nat → List Char × List (Nat × Nat)
  | 0, seq, _ => (seq, [])
  | fuel + 1, seq, searchPos =>
    match findFrom seq site searchPos with
    | none => (seq, [])
    | some idx =>
      if overlapsProtected prot idx site.length then
        sitePass site prot fuel seq (idx + 1)
      else
        let seq' := seq.take idx ++ seq.drop (idx + site.length)
        let res := sitePass site prot fuel seq' searchPos
        (res.1, (idx, site.length) :: res.2)

/-- The `for enzyme, site in …items()` loop of `remove_disallowed_sites`,
generalized over the pattern table (the source uses the module constant
`RESTRICTION_SITES`): enzymes in `allowed` are skipped (`continue`), every
other pattern is redacted by `sitePass`.  Deletion events are tagged with
the enzyme name. -/
def redactAll (table : List (List Char × List Char)) (allowed : Finset (List Char))
    (prot : List (Nat × Nat)) (seq : List Char) :
    List Char × List (List Char × Nat × Nat) :=
  match table with
  | [] => (seq, [])
  | (enzyme, site) :: rest =>
    if enzyme ∈ allowed then redactAll rest allowed prot seq
    else
      let p := sitePass site prot (2 * seq.length + 2) seq 0
      let r := redactAll rest allowed prot p.1
      (r.1, p.2.map (fun e => (enzyme, e)) ++ r.2)

/-- `remove_disallowed_sites(sequence, allowed_sites, protected_regions)`:
note line 103 takes `str(sequence)` with NO case normalization, so pattern
matching here is case-sensitive. -/
def remove_disallowed_sites (sequence : List Char) (allowed_sites : Finset (List Char))
    (protected_regions : List (Nat × Nat)) : List Char :=
  (redactAll RESTRICTION_SITES allowed_sites protected_regions sequence).1

/-! ### `detect_ori` -/

/-- The body of line 85: GC fraction of the window of length `window`
starting at `i` (already-uppercased `seq`), as an exact rational. -/
def gcFrac (seq : List Char) (window i : Nat) : ℚ :=
  let fragment := (seq.drop i).take window
  ((fragment.count 'G' : ℚ) + (fragment.count 'C' : ℚ)) / (window : ℚ)

/-- `detect_ori(sequence, window)`: uppercase the sequence, scan windows at
offsets `0 … length - window - 1`, track the minimum GC fraction (strict
`<`, so the first minimum is kept; initial minimum `1.0`, initial start
`0`), return `(ori_start, ori_start + window)`. -/
def detect_ori (sequence : List Char) (window : Nat := 100) : Nat × Nat :=
  let seq := sequence.map Char.toUpper
  let r := (List.range (seq.length - window)).foldl
    (fun acc i => if gcFrac seq window i < acc.1 then (gcFrac seq window i, i) else acc)
    ((1 : ℚ), 0)
  (r.2, r.2 + window)

/-! ### `parse_design_file` -/

/-- The only exception the parser can raise: tuple unpacking on line 55
fails with `ValueError` when a line does not split into exactly two
comma-separated fields. -/
inductive SpecError where
  | malformedSpecLine
deriving DecidableEq

/-- The triple accumulated by `parse_design_file`. -/
structure DesignSpec where
  allowed_sites : Finset (List Char)
  required_markers : Finset (List Char)
  required_ori : Option (List Char)
deriving DecidableEq

/-- One iteration of the `for line in f` loop (lines 51–64): skip blank
lines; split on commas and strip each field; fail unless there are exactly
two fields; then dispatch on the key: `endswith("_site")` first, then
`endswith("_gene")`, then `startswith("ori")`, else ignore the line. -/
def parseLine (st : DesignSpec) (line : List Char) : Except SpecError DesignSpec :=
  if pyStrip line = [] then .ok st
  else
    match (splitOnComma line).map pyStrip with
    | [key, value] =>
      .ok <|
        if "_site".toList.isSuffixOf key then
          { st with allowed_sites := insert value st.allowed_sites }
        else if "_gene".toList.isSuffixOf key then
          { st with required_markers := insert value st.required_markers }
        else if "ori".toList.isPrefixOf key then
          { st with required_ori := some value }
        else st
    | _ => .error .malformedSpecLine

/-- `parse_design_file`, over the file's list of lines. -/
def parse_design_file (lines : List (List Char)) : Except SpecError DesignSpec :=
  lines.foldlM parseLine ⟨∅, ∅, none⟩

/-! ## Helper lemmas about the search primitive -/

theorem occursAt_false_of_overflow {seq pat : List Char} {j : Nat}
    (h : seq.length < j + pat.length) : occursAt seq pat j = false := by
  simp only [occursAt, Bool.and_eq_false_iff, decide_eq_false_iff_not]
  left; omega

theorem findFromGo_eq_some (seq pat : List Char) :
    ∀ fuel i idx, findFromGo seq pat i fuel = some idx →
      i ≤ idx ∧ occursAt seq pat idx = true ∧
        ∀ j, i ≤ j → j < idx → occursAt seq pat j = false := by
  intro fuel
  induction fuel with
  | zero => intro i idx h; simp [findFromGo] at h
  | succ fuel ih =>
    intro i idx h
    by_cases hocc : occursAt seq pat i = true
    · simp [findFromGo, hocc] at h
      subst h
      exact ⟨Nat.le_refl _, hocc, fun j hj hj' => absurd (Nat.lt_of_le_of_lt hj hj') (Nat.lt_irrefl _)⟩
    · replace hocc : occursAt seq pat i = false := by
        simpa using hocc
      simp only [findFromGo, hocc, if_false] at h
      obtain ⟨h1, h2, h3⟩ := ih (i + 1) idx h
      refine ⟨Nat.le_trans (Nat.le_succ i) h1, h2, fun j hj hj' => ?_⟩
      rcases Nat.eq_or_lt_of_le hj with rfl | hlt
      · exact hocc
      · exact h3 j hlt hj'

theorem findFromGo_eq_none (seq pat : List Char) :
    ∀ fuel i, findFromGo seq pat i fuel = none →
      ∀ j, i ≤ j → j < i + fuel → occursAt seq pat j = false := by
  intro fuel
  induction fuel with
  | zero => intro i _ j hj hj'; omega
  | succ fuel ih =>
    intro i h j hj hj'
    by_cases hocc : occursAt seq pat i = true
    · simp [findFromGo, hocc] at h
    · replace hocc : occursAt seq pat i = false := by
        simpa using hocc
      simp only [findFromGo, hocc, if_false] at h
      rcases Nat.eq_or_lt_of_le hj with rfl | hlt
      · exact hocc
      · exact ih (i + 1) h j hlt (by omega)

theorem findFromGo_eq_none_of (seq pat : List Char)
    (h : ∀ j, occursAt seq pat j = false) :
    ∀ fuel i, findFromGo seq pat i fuel = none := by
  intro fuel
  induction fuel with
  | zero => intro i; rfl
  | succ fuel ih => intro i; simp [findFromGo, h i, ih (i + 1)]

theorem findFrom_eq_some {seq pat : List Char} {start idx : Nat}
    (h : findFrom seq pat start = some idx) :
    pat ≠ [] ∧ start ≤ idx ∧ occursAt seq pat idx = true ∧
      ∀ j, start ≤ j → j < idx → occursAt seq pat j = false := by
  unfold findFrom at h
  by_cases hp : pat.isEmpty
  · simp [hp] at h
  · rw [if_neg hp] at h
    obtain ⟨h1, h2, h3⟩ := findFromGo_eq_some seq pat _ start idx h
    exact ⟨fun hnil => hp (by simp [hnil]), h1, h2, h3⟩

theorem findFrom_eq_none {seq pat : List Char} {start : Nat}
    (h : findFrom seq pat start = none) (hp : pat ≠ []) :
    ∀ j, start ≤ j → occursAt seq pat j = false := by
  intro j hj
  unfold findFrom at h
  rw [if_neg (by simpa using hp)] at h
  by_cases hb : j < start + (seq.length + 1 - start)
  · exact findFromGo_eq_none seq pat _ start h j hj hb
  · refine occursAt_false_of_overflow ?_
    have hp1 : 1 ≤ pat.length := by
      cases pat with
      | nil => exact absurd rfl hp
      | cons c t => simp
    omega

theorem findFrom_eq_none_of {seq pat : List Char} (start : Nat)
    (h : ∀ j, occursAt seq pat j = false) :
    findFrom seq pat start = none := by
  unfold findFrom
  by_cases hp : pat.isEmpty
  · rw [if_pos hp]
  · rw [if_neg hp]
    exact findFromGo_eq_none_of seq pat h _ start

/-! ## Helper lemmas about the redaction loop -/

theorem overlapsProtected_eq_false_iff {prot : List (Nat × Nat)} {idx len : Nat} :
    overlapsProtected prot idx len = false ↔
      ∀ r ∈ prot, ¬(idx < r.2 ∧ idx + len > r.1) := by
  simp [overlapsProtected, not_and, imp_iff_not_or]

/-- Every deletion the inner loop records was checked against the protected
regions: its interval fails the half-open overlap test, its length is the
(nonzero) pattern length. -/
theorem sitePass_events_spec (site : List Char) (prot : List (Nat × Nat)) :
    ∀ fuel seq sp ev, ev ∈ (sitePass site prot fuel seq sp).2 →
      ev.2 = site.length ∧ 1 ≤ site.length ∧
        overlapsProtected prot ev.1 site.length = false := by
  intro fuel
  induction fuel with
  | zero => intro seq sp ev hev; simp [sitePass] at hev
  | succ fuel ih =>
    intro seq sp ev hev
    cases hf : findFrom seq site sp with
    | none => simp [sitePass, hf] at hev
    | some idx =>
      simp only [sitePass, hf] at hev
      by_cases hov : overlapsProtected prot idx site.length = true
      · rw [if_pos hov] at hev
        exact ih seq (idx + 1) ev hev
      · replace hov : overlapsProtected prot idx site.length = false := by
          simpa using hov
        rw [if_neg (by simp [hov])] at hev
        simp only [List.mem_cons] at hev
        rcases hev with rfl | hev
        · have hne : site ≠ [] := (findFrom_eq_some hf).1
          refine ⟨rfl, ?_, hov⟩
          cases site with
          | nil => exact absurd rfl hne
          | cons c t => simp
        · exact ih _ sp ev hev

/-- With no protected regions and a nonempty pattern, the inner loop (run
with enough fuel from cursor 0) leaves no occurrence of the pattern. -/
theorem sitePass_no_prot_no_occurrence (site : List Char) (hs : site ≠ []) :
    ∀ fuel seq, seq.length + 1 ≤ fuel → ∀ i,
      occursAt (sitePass site [] fuel seq 0).1 site i = false := by
  intro fuel
  induction fuel with
  | zero => intro seq hle; omega
  | succ fuel ih =>
    intro seq hle i
    cases hf : findFrom seq site 0 with
    | none =>
      simp only [sitePass, hf]
      exact findFrom_eq_none hf hs i (Nat.zero_le i)
    | some idx =>
      simp only [sitePass, hf]
      have hov : overlapsProtected [] idx site.length = false := rfl
      rw [if_neg (by simp [hov])]
      obtain ⟨-, -, hocc, -⟩ := findFrom_eq_some hf
      have hbound : idx + site.length ≤ seq.length := by
        by_contra hb
        rw [occursAt_false_of_overflow (by omega)] at hocc
        exact Bool.false_ne_true hocc
      have hlen : 1 ≤ site.length := by
        cases site with
        | nil => exact absurd rfl hs
        | cons c t => simp
      have hlen' : (seq.take idx ++ seq.drop (idx + site.length)).length + 1 ≤ fuel := by
        simp only [List.length_append, List.length_take, List.length_drop]
        omega
      exact ih _ hlen' i

/-- Processing a table all of whose enzymes are allowed is a no-op. -/
theorem redactAll_all_allowed (allowed : Finset (List Char)) (prot : List (Nat × Nat)) :
    ∀ table seq, (∀ e ∈ table, e.1 ∈ allowed) →
      redactAll table allowed prot seq = (seq, []) := by
  intro table
  induction table with
  | nil => intro seq _; rfl
  | cons e rest ih =>
    intro seq h
    obtain ⟨enzyme, site⟩ := e
    have he : enzyme ∈ allowed := h _ (List.mem_cons_self _ _)
    simp only [redactAll, if_pos he]
    exact ih seq fun e' he' => h e' (List.mem_cons_of_mem _ he')

/-- The redacted sequence threads left to right through the table. -/
theorem redactAll_append_fst (allowed : Finset (List Char)) (prot : List (Nat × Nat)) :
    ∀ t1 t2 seq, (redactAll (t1 ++ t2) allowed prot seq).1 =
      (redactAll t2 allowed prot (redactAll t1 allowed prot seq).1).1 := by
  intro t1
  induction t1 with
  | nil => intro t2 seq; rfl
  | cons e rest ih =>
    intro t2 seq
    obtain ⟨enzyme, site⟩ := e
    by_cases he : enzyme ∈ allowed
    · simp only [List.cons_append, redactAll, if_pos he]
      exact ih t2 seq
    · simp only [List.cons_append, redactAll, if_neg he]
      exact ih t2 _

/-- For a table whose only disallowed entry is `(enzyme, site)`, the final
sequence is just the single pass of `sitePass` on that pattern. -/
theorem redactAll_single_mid_fst {t1 t2 : List (List Char × List Char)}
    {enzyme site : List Char} {allowed : Finset (List Char)}
    (prot : List (Nat × Nat)) (seq : List Char)
    (h1 : ∀ e ∈ t1, e.1 ∈ allowed) (h2 : ∀ e ∈ t2, e.1 ∈ allowed)
    (hd : enzyme ∉ allowed) :
    (redactAll (t1 ++ (enzyme, site) :: t2) allowed prot seq).1 =
      (sitePass site prot (2 * seq.length + 2) seq 0).1 := by
  rw [redactAll_append_fst, redactAll_all_allowed allowed prot t1 seq h1]
  simp only [redactAll, if_neg hd]
  rw [redactAll_all_allowed allowed prot t2 _ h2]

/-- Every deletion event of a full run is tagged with a disallowed enzyme
whose pattern is in the table, has that pattern's (positive) length, and
was performed at an index that failed the protected-overlap test. -/
theorem redactAll_events_spec (allowed : Finset (List Char)) (prot : List (Nat × Nat)) :
    ∀ table seq ev, ev ∈ (redactAll table allowed prot seq).2 →
      ev.1 ∉ allowed ∧ 1 ≤ ev.2.2 ∧
        overlapsProtected prot ev.2.1 ev.2.2 = false ∧
        ∃ site, (ev.1, site) ∈ table ∧ ev.2.2 = site.length := by
  intro table
  induction table with
  | nil => intro seq ev hev; simp [redactAll] at hev
  | cons e rest ih =>
    intro seq ev hev
    obtain ⟨enzyme, site⟩ := e
    by_cases he : enzyme ∈ allowed
    · simp only [redactAll, if_pos he] at hev
      obtain ⟨ha, hb, hc, s, hs, hl⟩ := ih seq ev hev
      exact ⟨ha, hb, hc, s, List.mem_cons_of_mem _ hs, hl⟩
    · simp only [redactAll, if_neg he, List.mem_append, List.mem_map] at hev
      rcases hev with ⟨⟨idx, len⟩, hmem, rfl⟩ | hev
      · obtain ⟨hlen, hpos, hov⟩ := sitePass_events_spec site prot _ seq 0 _ hmem
        simp only at hlen
        subst hlen
        exact ⟨he, hpos, hov, site, List.mem_cons_self _ _, rfl⟩
      · obtain ⟨ha, hb, hc, s, hs, hl⟩ := ih _ ev hev
        exact ⟨ha, hb, hc, s, List.mem_cons_of_mem _ hs, hl⟩

/-! ## Claim C1 -/

/-- Claim C1, counterexample.  The claim says no unprotected occurrence of a
disallowed pattern ever remains, occurrences created by the concatenation
of flanks included.  On `"GAGGATCCATTC"` with nothing allowed and nothing
protected, deleting the BamHI site `"GGATCC"` concatenates the flanks into
a fresh EcoRI site `"GAATTC"`; EcoRI was processed earlier in the table, so
the new occurrence survives to the output even though it is disallowed and
unprotected. -/
theorem c1_counterexample :
    remove_disallowed_sites "GAGGATCCATTC".toList ∅ [] = "GAATTC".toList ∧
      ("EcoRI".toList, "GAATTC".toList) ∈ RESTRICTION_SITES ∧
      "EcoRI".toList ∉ (∅ : Finset (List Char)) ∧
      occursAt "GAATTC".toList "GAATTC".toList 0 = true := by
  decide

/-- Claim C1, amended: if the protected-region list is empty and exactly one
entry of the pattern table is disallowed (and its pattern is nonempty),
then the returned sequence contains no occurrence of that pattern at all —
occurrences created by the concatenation of flanks included.  (With several
disallowed patterns a deletion for a later pattern can recreate an earlier
pattern, and with protected regions index drift can expose protected
occurrences, see the counterexample; neither can happen here.) -/
theorem c1_single_disallowed_pattern_fully_removed
    (t1 t2 : List (List Char × List Char)) (enzyme site : List Char)
    (allowed : Finset (List Char)) (seq : List Char)
    (h1 : ∀ e ∈ t1, e.1 ∈ allowed) (h2 : ∀ e ∈ t2, e.1 ∈ allowed)
    (hd : enzyme ∉ allowed) (hs : site ≠ []) (i : Nat) :
    occursAt (redactAll (t1 ++ (enzyme, site) :: t2) allowed [] seq).1 site i = false := by
  rw [redactAll_single_mid_fst [] seq h1 h2 hd]
  exact sitePass_no_prot_no_occurrence site hs _ seq (by omega) i

/-- Claim C1, witness for the amended theorem. -/
theorem c1_single_disallowed_pattern_fully_removed_witness :
    occursAt (redactAll [("EcoRI".toList, "GAATTC".toList)] ∅ [] "AGAATTCA".toList).1
      "GAATTC".toList 0 = false :=
  c1_single_disallowed_pattern_fully_removed [] [] "EcoRI".toList "GAATTC".toList ∅
    "AGAATTCA".toList (by simp) (by simp) (by decide) (by decide) 0

/-! ## Claim C2 -/

/-- Claim C2, counterexample.  The forward half of the claim (removed occurrences
never overlap a protected interval, judged at removal time) holds, but the
converse fails: on `"GGATCCAAAAGAATTC"` with protected interval `[10,16)`,
the EcoRI occurrence at `[10,16)` lies fully inside the protected interval,
yet deleting the unprotected BamHI occurrence at `[0,6)` shifts it left by
six positions, so the output `"AAAAGAATTC"` does not contain it verbatim at
position 10 (position 10 is past the end of the output). -/
theorem c2_counterexample :
    occursAt "GGATCCAAAAGAATTC".toList "GAATTC".toList 10 = true ∧
      (10 ≥ 10 ∧ 10 + 6 ≤ 16) ∧
      remove_disallowed_sites "GGATCCAAAAGAATTC".toList ∅ [(10, 16)] = "AAAAGAATTC".toList ∧
      occursAt "AAAAGAATTC".toList "GAATTC".toList 10 = false := by
  decide

/-- Claim C2, amended: every deletion the redactor performs is at an interval
`[idx, idx + len)` (indices of the sequence as it stands at deletion time)
that fails the half-open overlap test `idx < end ∧ idx + len > start`
against every protected interval; in particular no deletion interval lies
fully inside a protected interval.  The converse direction of the original
claim — that a fully protected occurrence is still present verbatim at its
input position in the output — is dropped: deletions at smaller indices
shift protected occurrences, as the counterexample shows. -/
theorem c2_removed_occurrences_never_overlap_protected
    (table : List (List Char × List Char)) (allowed : Finset (List Char))
    (prot : List (Nat × Nat)) (seq : List Char)
    (ev : List Char × Nat × Nat) (r : Nat × Nat)
    (hev : ev ∈ (redactAll table allowed prot seq).2) (hr : r ∈ prot) :
    ¬(ev.2.1 < r.2 ∧ ev.2.1 + ev.2.2 > r.1) ∧
      ¬(r.1 ≤ ev.2.1 ∧ ev.2.1 + ev.2.2 ≤ r.2) := by
  obtain ⟨-, hpos, hov, -⟩ := redactAll_events_spec allowed prot table seq ev hev
  have h := overlapsProtected_eq_false_iff.mp hov r hr
  exact ⟨h, fun hc => h ⟨by omega, by omega⟩⟩

/-- Claim C2, witness for the amended theorem. -/
theorem c2_removed_occurrences_never_overlap_protected_witness :
    ¬((4 : Nat) < 2 ∧ (4 : Nat) + 6 > 0) ∧ ¬((0 : Nat) ≤ 4 ∧ (4 : Nat) + 6 ≤ 2) :=
  c2_removed_occurrences_never_overlap_protected
    [("EcoRI".toList, "GAATTC".toList)] ∅ [(0, 2)] "AAAAGAATTC".toList
    ("EcoRI".toList, 4, 6) (0, 2) (by decide) (by decide)

/-! ## Claim C4 -/

/-- Claim C4, counterexample.  Redaction is not idempotent: on `"GAGGATCCATTC"`
(nothing allowed, nothing protected) the first run leaves `"GAATTC"` — an
EcoRI site created by flank concatenation after EcoRI's pass was over — and
the second run removes it, giving the empty sequence. -/
theorem c4_counterexample :
    remove_disallowed_sites "GAGGATCCATTC".toList ∅ [] = "GAATTC".toList ∧
      remove_disallowed_sites "GAATTC".toList ∅ [] = [] ∧
      "GAATTC".toList ≠ ([] : List Char) := by
  decide

/-- Claim C4, amended: when the protected-region list is empty and exactly one
entry of the pattern table is disallowed (with a nonempty pattern), a
second application of the redactor to the first application's output
returns that output unchanged. -/
theorem c4_idempotent_single_disallowed
    (t1 t2 : List (List Char × List Char)) (enzyme site : List Char)
    (allowed : Finset (List Char)) (seq : List Char)
    (h1 : ∀ e ∈ t1, e.1 ∈ allowed) (h2 : ∀ e ∈ t2, e.1 ∈ allowed)
    (hd : enzyme ∉ allowed) (hs : site ≠ []) :
    (redactAll (t1 ++ (enzyme, site) :: t2) allowed []
        (redactAll (t1 ++ (enzyme, site) :: t2) allowed [] seq).1).1 =
      (redactAll (t1 ++ (enzyme, site) :: t2) allowed [] seq).1 := by
  have hout : ∀ i, occursAt ((redactAll (t1 ++ (enzyme, site) :: t2) allowed [] seq).1)
      site i = false := by
    rw [redactAll_single_mid_fst [] seq h1 h2 hd]
    exact sitePass_no_prot_no_occurrence site hs _ seq (by omega)
  rw [redactAll_single_mid_fst [] _ h1 h2 hd]
  have hnone : findFrom (redactAll (t1 ++ (enzyme, site) :: t2) allowed [] seq).1 site 0 =
      none := findFrom_eq_none_of 0 hout
  simp [sitePass, hnone]

/-- Claim C4, witness for the amended theorem. -/
theorem c4_idempotent_single_disallowed_witness :
    (redactAll [("EcoRI".toList, "GAATTC".toList)] ∅ []
        (redactAll [("EcoRI".toList, "GAATTC".toList)] ∅ [] "AGAATTCA".toList).1).1 =
      (redactAll [("EcoRI".toList, "GAATTC".toList)] ∅ [] "AGAATTCA".toList).1 :=
  c4_idempotent_single_disallowed [] [] "EcoRI".toList "GAATTC".toList ∅
    "AGAATTCA".toList (by simp) (by simp) (by decide) (by decide)

/-! ## Claim C7 -/

/-- Claim C7, counterexample.  An allowed pattern's pass is indeed skipped, but
an allowed occurrence is not guaranteed to survive: on `"TCTAGAATTC"` with
XbaI allowed, the XbaI occurrence `"TCTAGA"` at position 0 overlaps the
disallowed EcoRI occurrence `"GAATTC"` at position 4; deleting the latter
destroys the former, and the output `"TCTA"` (length 4) contains no XbaI
occurrence at all. -/
theorem c7_counterexample :
    ("XbaI".toList, "TCTAGA".toList) ∈ RESTRICTION_SITES ∧
      "XbaI".toList ∈ ({"XbaI".toList} : Finset (List Char)) ∧
      occursAt "TCTAGAATTC".toList "TCTAGA".toList 0 = true ∧
      remove_disallowed_sites "TCTAGAATTC".toList {"XbaI".toList} [] = "TCTA".toList ∧
      ∀ i, occursAt "TCTA".toList "TCTAGA".toList i = false := by
  refine ⟨by decide, by decide, by decide, by decide, fun i => ?_⟩
  exact occursAt_false_of_overflow (by simp)

/-- Claim C7, amended: the redactor never deletes on behalf of an allowed
pattern — every deletion event is tagged with an enzyme name outside the
allowed set (and with the length of that enzyme's pattern in the table).
An allowed occurrence can nevertheless be destroyed or shifted by the
deletion of an overlapping or preceding disallowed occurrence, as the
counterexample shows. -/
theorem c7_deletions_only_for_disallowed
    (table : List (List Char × List Char)) (allowed : Finset (List Char))
    (prot : List (Nat × Nat)) (seq : List Char) (ev : List Char × Nat × Nat)
    (hev : ev ∈ (redactAll table allowed prot seq).2) :
    ev.1 ∉ allowed ∧ ∃ site, (ev.1, site) ∈ table ∧ ev.2.2 = site.length := by
  obtain ⟨ha, -, -, hsite⟩ := redactAll_events_spec allowed prot table seq ev hev
  exact ⟨ha, hsite⟩

/-- Claim C7, witness for the amended theorem. -/
theorem c7_deletions_only_for_disallowed_witness :
    ("EcoRI".toList, 1, 6).1 ∉ (∅ : Finset (List Char)) ∧
      ∃ site, (("EcoRI".toList, 1, 6).1, site) ∈ [("EcoRI".toList, "GAATTC".toList)] ∧
        ("EcoRI".toList, (1 : Nat), (6 : Nat)).2.2 = site.length :=
  c7_deletions_only_for_disallowed [("EcoRI".toList, "GAATTC".toList)] ∅ []
    "AGAATTCA".toList ("EcoRI".toList, 1, 6) (by decide)

/-! ## Claim C8 -/

/-- Claim C8, counterexample.  The output is order-sensitive: on
`"GAGGATCCATTC"` the table `[EcoRI, BamHI]` leaves `"GAATTC"` (the EcoRI
site created by BamHI's deletion is never revisited) while the permuted
table `[BamHI, EcoRI]` leaves the empty sequence. -/
theorem c8_counterexample :
    (redactAll [("EcoRI".toList, "GAATTC".toList), ("BamHI".toList, "GGATCC".toList)]
        ∅ [] "GAGGATCCATTC".toList).1 = "GAATTC".toList ∧
      (redactAll [("BamHI".toList, "GGATCC".toList), ("EcoRI".toList, "GAATTC".toList)]
        ∅ [] "GAGGATCCATTC".toList).1 = [] ∧
      List.Perm [("EcoRI".toList, "GAATTC".toList), ("BamHI".toList, "GGATCC".toList)]
        [("BamHI".toList, "GGATCC".toList), ("EcoRI".toList, "GAATTC".toList)] ∧
      "GAATTC".toList ≠ ([] : List Char) := by
  decide

/-- Claim C8, amended: the output is NOT invariant under arbitrary permutations
of the pattern table (see the counterexample); what does hold is that the
allowed entries are inert: the run is identical (final sequence and
deletion trace) to the run on the subsequence of disallowed entries, so
any permutation that keeps the relative order of the disallowed entries —
in particular any rearrangement of allowed entries — leaves the output
unchanged. -/
theorem c8_output_determined_by_disallowed_subsequence
    (table : List (List Char × List Char)) (allowed : Finset (List Char))
    (prot : List (Nat × Nat)) (seq : List Char) :
    redactAll table allowed prot seq =
      redactAll (table.filter fun e => decide (e.1 ∉ allowed)) allowed prot seq := by
  induction table generalizing seq with
  | nil => rfl
  | cons e rest ih =>
    obtain ⟨enzyme, site⟩ := e
    by_cases he : enzyme ∈ allowed
    · simp only [redactAll, if_pos he, List.filter_cons]
      rw [if_neg (by simp [he])]
      exact ih seq
    · simp only [List.filter_cons]
      rw [if_pos (by simp [he])]
      simp only [redactAll, if_neg he]
      rw [ih]

/-! ## Helper lemmas for the sliding-window scan -/

theorem count_G_add_count_C_le (l : List Char) :
    l.count 'G' + l.count 'C' ≤ l.length := by
  induction l with
  | nil => simp
  | cons c t ih =>
    simp only [List.count_cons, List.length_cons, beq_iff_eq]
    by_cases h1 : c = 'G' <;> by_cases h2 : c = 'C' <;>
      simp only [h1, h2, if_true, if_false, if_pos, if_neg, not_false_iff] <;>
      simp_all <;> omega

theorem gcFrac_le_one (seq : List Char) {window : Nat} (hw : 0 < window) (i : Nat) :
    gcFrac seq window i ≤ 1 := by
  unfold gcFrac
  rw [div_le_one (by exact_mod_cast hw)]
  have h1 := count_G_add_count_C_le ((seq.drop i).take window)
  have h2 : ((seq.drop i).take window).length ≤ window := by
    simp [List.length_take]
  exact_mod_cast h1.trans h2

/-- The scan of `detect_ori` computes the first argmin: the accumulator
pair after folding over `range n` (from the initial `(1, 0)`) holds the GC
value at the recorded offset, the recorded offset is in range and minimal,
and every earlier offset is strictly worse. -/
theorem oriFold_spec (g : Nat → ℚ) (hg : ∀ i, g i ≤ 1) :
    ∀ n, 1 ≤ n → ∀ r : ℚ × Nat,
      (List.range n).foldl (fun acc i => if g i < acc.1 then (g i, i) else acc)
        ((1 : ℚ), 0) = r →
      r.2 < n ∧ r.1 = g r.2 ∧ (∀ i, i < n → g r.2 ≤ g i) ∧
        ∀ i, i < r.2 → g r.2 < g i := by
  intro n hn
  induction n, hn using Nat.le_induction with
  | base =>
    intro r hr
    subst hr
    rw [show List.range 1 = [0] from rfl, List.foldl_cons, List.foldl_nil]
    by_cases h0 : g 0 < 1
    · rw [if_pos h0]
      refine ⟨Nat.zero_lt_one, rfl, fun i hi => ?_, fun i hi => absurd hi (Nat.not_lt_zero i)⟩
      rw [Nat.lt_one_iff] at hi
      subst hi
      exact le_refl _
    · rw [if_neg h0]
      have hone : g 0 = 1 := le_antisymm (hg 0) (not_lt.mp h0)
      refine ⟨Nat.zero_lt_one, hone.symm, fun i hi => ?_, fun i hi => absurd hi (Nat.not_lt_zero i)⟩
      rw [Nat.lt_one_iff] at hi
      subst hi
      exact le_refl _
  | succ n hn ih =>
    intro r hr
    obtain ⟨h1, h2, h3, h4⟩ := ih _ rfl
    rw [List.range_succ, List.foldl_append, List.foldl_cons, List.foldl_nil] at hr
    by_cases hgn : g n <
        (List.foldl (fun acc i => if g i < acc.1 then (g i, i) else acc)
          ((1 : ℚ), 0) (List.range n)).1
    · rw [if_pos hgn] at hr
      subst hr
      rw [h2] at hgn
      refine ⟨Nat.lt_succ_self n, rfl, fun i hi => ?_, fun i hi => ?_⟩
      · show g n ≤ g i
        rcases Nat.lt_succ_iff_lt_or_eq.mp hi with hi' | rfl
        · exact hgn.le.trans (h3 i hi')
        · exact le_refl _
      · show g n < g i
        exact hgn.trans_le (h3 i hi)
    · rw [if_neg hgn] at hr
      subst hr
      rw [h2] at hgn
      refine ⟨h1.trans (Nat.lt_succ_self n), h2, fun i hi => ?_, h4⟩
      rcases Nat.lt_succ_iff_lt_or_eq.mp hi with hi' | rfl
      · exact h3 i hi'
      · exact not_lt.mp hgn

/-! ## Claim C5 -/

/-- Claim C5 (confirmed): for `window < len(sequence)` and `0 < window`,
`detect_ori` returns `(b, b + window)` where `b` lies among the examined
offsets `0 … len - window - 1`, the (case-insensitive) GC fraction at `b`
is minimal among all examined offsets, and every earlier offset has a
strictly larger GC fraction — so a later tie never replaces the recorded
minimum. -/
theorem c5_detect_ori_first_argmin (sequence : List Char) (window : Nat)
    (hw : 0 < window) (hl : window < sequence.length) :
    (detect_ori sequence window).2 = (detect_ori sequence window).1 + window ∧
      (detect_ori sequence window).1 < sequence.length - window ∧
      (∀ i, i < sequence.length - window →
        gcFrac (sequence.map Char.toUpper) window ((detect_ori sequence window).1) ≤
          gcFrac (sequence.map Char.toUpper) window i) ∧
      ∀ i, i < (detect_ori sequence window).1 →
        gcFrac (sequence.map Char.toUpper) window ((detect_ori sequence window).1) <
          gcFrac (sequence.map Char.toUpper) window i := by
  have hn : 1 ≤ (sequence.map Char.toUpper).length - window := by
    rw [List.length_map]; omega
  obtain ⟨h1, h2, h3, h4⟩ :=
    oriFold_spec (gcFrac (sequence.map Char.toUpper) window)
      (gcFrac_le_one (sequence.map Char.toUpper) hw) _ hn _ rfl
  have hlen : (sequence.map Char.toUpper).length = sequence.length := List.length_map _ _
  refine ⟨rfl, ?_, fun i hi => ?_, h4⟩
  · have hb : (detect_ori sequence window).1 <
        (sequence.map Char.toUpper).length - window := h1
    omega
  · exact h3 i (by omega)

/-- Claim C5, witness. -/
theorem c5_detect_ori_first_argmin_witness :
    (0 : Nat) < 2 ∧ 2 < "GCAT".toList.length ∧
      ((detect_ori "GCAT".toList 2).2 = (detect_ori "GCAT".toList 2).1 + 2 ∧
        (detect_ori "GCAT".toList 2).1 < "GCAT".toList.length - 2 ∧
        (∀ i, i < "GCAT".toList.length - 2 →
          gcFrac ("GCAT".toList.map Char.toUpper) 2 ((detect_ori "GCAT".toList 2).1) ≤
            gcFrac ("GCAT".toList.map Char.toUpper) 2 i) ∧
        ∀ i, i < (detect_ori "GCAT".toList 2).1 →
          gcFrac ("GCAT".toList.map Char.toUpper) 2 ((detect_ori "GCAT".toList 2).1) <
            gcFrac ("GCAT".toList.map Char.toUpper) 2 i) :=
  ⟨by decide, by decide,
    c5_detect_ori_first_argmin "GCAT".toList 2 (by decide) (by decide)⟩

/-! ## Claim C3 -/

/-- Claim C3, counterexample.  The claim says `detect_ori` must fail with a fatal
error when `len(sequence) ≤ window`; the code performs no validation and
silently returns an interval: on the 2-symbol sequence `"AC"` with window
5 the scan loop body never runs and `(0, 5)` is returned. -/
theorem c3_counterexample : detect_ori "AC".toList 5 = (0, 5) := by
  decide

/-- Claim C3, amended: `detect_ori` has no window validation and never fails;
whenever `len(sequence) ≤ window` the range of examined offsets is empty
and the function returns the interval `(0, window)` (which extends past
the end of the sequence). -/
theorem c3_short_sequence_returns_zero_window (sequence : List Char) (window : Nat)
    (h : sequence.length ≤ window) :
    detect_ori sequence window = (0, window) := by
  have hz : (sequence.map Char.toUpper).length - window = 0 := by
    rw [List.length_map]; omega
  simp only [detect_ori]
  rw [hz]
  simp

/-- Claim C3, witness for the amended theorem. -/
theorem c3_short_sequence_returns_zero_window_witness :
    "A".toList.length ≤ 3 ∧ detect_ori "A".toList 3 = (0, 3) :=
  ⟨by decide, c3_short_sequence_returns_zero_window "A".toList 3 (by decide)⟩

/-! ## Claim C6 -/

theorem toNat_ofNat_of_lt {n : Nat} (h : n < 0xd800) :
    (Char.ofNat n).toNat = n := by
  unfold Char.ofNat
  rw [dif_pos (Or.inl h)]
  rfl

/-- `Char.toUpper` (Python `str.upper` on the basic latin range) never
produces a lower-case letter. -/
theorem toUpper_not_lower (c : Char) :
    ¬(c.toUpper.toNat ≥ 97 ∧ c.toUpper.toNat ≤ 122) := by
  show ¬((if c.toNat ≥ 97 ∧ c.toNat ≤ 122 then Char.ofNat (c.toNat - 32)
        else c).toNat ≥ 97 ∧
      (if c.toNat ≥ 97 ∧ c.toNat ≤ 122 then Char.ofNat (c.toNat - 32)
        else c).toNat ≤ 122)
  by_cases h : c.toNat ≥ 97 ∧ c.toNat ≤ 122
  · rw [if_pos h, toNat_ofNat_of_lt (by omega)]
    omega
  · rw [if_neg h]
    exact h

theorem toUpper_toUpper (c : Char) : c.toUpper.toUpper = c.toUpper := by
  show (if c.toUpper.toNat ≥ 97 ∧ c.toUpper.toNat ≤ 122 then
      Char.ofNat (c.toUpper.toNat - 32) else c.toUpper) = c.toUpper
  rw [if_neg (toUpper_not_lower c)]

/-- Claim C6, counterexample.  The claim says `remove_disallowed_sites` matches
case-insensitively.  It does not: `"gaattc"` is a lower-case EcoRI
occurrence (its upper-casing is exactly `"GAATTC"`), EcoRI is disallowed
and nothing is protected, yet the sequence is returned unchanged, because
line 103 takes `str(sequence)` without any case normalization and
`str.find` is case-sensitive. -/
theorem c6_counterexample :
    "gaattc".toList.map Char.toUpper = "GAATTC".toList ∧
      ("EcoRI".toList, "GAATTC".toList) ∈ RESTRICTION_SITES ∧
      remove_disallowed_sites "gaattc".toList ∅ [] = "gaattc".toList := by
  decide

/-- Claim C6, amended: only `detect_ori` is case-insensitive — it upper-cases
the sequence before counting, so its result is invariant under
upper-casing the input.  `remove_disallowed_sites` is case-sensitive: it
matches the table's upper-case patterns exactly, so a lower-case
occurrence such as `"gaattc"` is not located and not removed. -/
theorem c6_detect_ci_redact_case_sensitive :
    (∀ (sequence : List Char) (window : Nat),
      detect_ori (sequence.map Char.toUpper) window = detect_ori sequence window) ∧
      remove_disallowed_sites "CCgaattcCC".toList ∅ [] = "CCgaattcCC".toList := by
  constructor
  · intro sequence window
    simp only [detect_ori, List.map_map]
    rw [show Char.toUpper ∘ Char.toUpper = Char.toUpper from funext toUpper_toUpper]
  · decide

/-! ## Claims C9 and C10: the design-file parser -/

theorem exceptBind_ok {α β : Type} (a : α) (f : α → Except SpecError β) :
    (Except.ok a >>= f) = f a := rfl

theorem exceptBind_error {α β : Type} (e : SpecError) (f : α → Except SpecError β) :
    ((Except.error e : Except SpecError α) >>= f) = Except.error e := rfl

/-- A line that does not split into exactly two fields makes `parseLine`
fail, whatever the accumulated state. -/
theorem parseLine_malformed {line : List Char} (hblank : pyStrip line ≠ [])
    (hfields : ((splitOnComma line).map pyStrip).length ≠ 2) (st : DesignSpec) :
    parseLine st line = .error .malformedSpecLine := by
  unfold parseLine
  rw [if_neg hblank]
  cases hm : (splitOnComma line).map pyStrip with
  | nil => rfl
  | cons k rest =>
    cases rest with
    | nil => rfl
    | cons v rest2 =>
      cases rest2 with
      | nil => rw [hm] at hfields; simp at hfields
      | cons w rest3 => rfl

/-- Claim C9 (confirmed): a non-blank design line that does not split into
exactly two comma-separated fields aborts parsing with the fatal
`MalformedSpecLine` error (Python: the tuple unpacking on line 55 raises
`ValueError`), wherever the line sits in the file; it is never silently
skipped. -/
theorem c9_malformed_line_is_fatal (l1 l2 : List (List Char)) (line : List Char)
    (hblank : pyStrip line ≠ [])
    (hfields : ((splitOnComma line).map pyStrip).length ≠ 2) :
    parse_design_file (l1 ++ line :: l2) = .error .malformedSpecLine := by
  show List.foldlM parseLine ⟨∅, ∅, none⟩ (l1 ++ line :: l2) = .error .malformedSpecLine
  generalize (⟨∅, ∅, none⟩ : DesignSpec) = st
  induction l1 generalizing st with
  | nil =>
    rw [List.nil_append, List.foldlM_cons, parseLine_malformed hblank hfields st,
      exceptBind_error]
  | cons a t ih =>
    rw [List.cons_append, List.foldlM_cons]
    cases hp : parseLine st a with
    | ok st' => rw [exceptBind_ok]; exact ih st'
    | error e => cases e; rw [exceptBind_error]

/-- Claim C9, witness. -/
theorem c9_malformed_line_is_fatal_witness :
    pyStrip "just_one_field".toList ≠ [] ∧
      ((splitOnComma "just_one_field".toList).map pyStrip).length ≠ 2 ∧
      parse_design_file ["just_one_field".toList] = .error .malformedSpecLine :=
  ⟨by decide, by decide,
    c9_malformed_line_is_fatal [] [] "just_one_field".toList (by decide) (by decide)⟩

/-- Claim C10 (confirmed), three parts.
(i) A well-formed two-field line whose key neither ends in `"_site"` nor
in `"_gene"` nor starts with `"ori"` is silently ignored: `parseLine`
returns the state unchanged (no error, no contribution to any set).
(ii) The key tests are applied in that priority order: a `"_site"` suffix
always adds to the allowed sites (even if the key also starts with
`"ori"`); a `"_gene"` suffix adds a marker only when `"_site"` failed; the
`"ori"` prefix sets the label only when both suffix tests failed.
(iii) The ORI label is overwritten on each `"ori"` line, so when several
lines declare one, the last one wins. -/
theorem c10_parse_dispatch :
    (∀ (st : DesignSpec) (line key value : List Char),
      (splitOnComma line).map pyStrip = [key, value] →
      pyStrip line ≠ [] →
      "_site".toList.isSuffixOf key = false →
      "_gene".toList.isSuffixOf key = false →
      "ori".toList.isPrefixOf key = false →
      parseLine st line = .ok st) ∧
    (∀ (st : DesignSpec) (line key value : List Char),
      (splitOnComma line).map pyStrip = [key, value] →
      pyStrip line ≠ [] →
      ("_site".toList.isSuffixOf key = true →
        parseLine st line = .ok { st with allowed_sites := insert value st.allowed_sites }) ∧
      ("_site".toList.isSuffixOf key = false → "_gene".toList.isSuffixOf key = true →
        parseLine st line = .ok { st with required_markers := insert value st.required_markers }) ∧
      ("_site".toList.isSuffixOf key = false → "_gene".toList.isSuffixOf key = false →
        "ori".toList.isPrefixOf key = true →
        parseLine st line = .ok { st with required_ori := some value })) ∧
    ∀ (lines : List (List Char)) (st : DesignSpec) (line key value : List Char),
      parse_design_file lines = .ok st →
      (splitOnComma line).map pyStrip = [key, value] →
      pyStrip line ≠ [] →
      "_site".toList.isSuffixOf key = false →
      "_gene".toList.isSuffixOf key = false →
      "ori".toList.isPrefixOf key = true →
      parse_design_file (lines ++ [line]) = .ok { st with required_ori := some value } := by
  have hok : ∀ (st : DesignSpec) (line key value : List Char),
      (splitOnComma line).map pyStrip = [key, value] → pyStrip line ≠ [] →
      parseLine st line = .ok (
        if "_site".toList.isSuffixOf key then
          { st with allowed_sites := insert value st.allowed_sites }
        else if "_gene".toList.isSuffixOf key then
          { st with required_markers := insert value st.required_markers }
        else if "ori".toList.isPrefixOf key then
          { st with required_ori := some value }
        else st) := by
    intro st line key value hf hb
    unfold parseLine
    rw [if_neg hb, hf]
  refine ⟨?_, ?_, ?_⟩
  · intro st line key value hf hb h1 h2 h3
    rw [hok st line key value hf hb, h1, h2, h3]
    simp
  · intro st line key value hf hb
    refine ⟨fun h1 => ?_, fun h1 h2 => ?_, fun h1 h2 h3 => ?_⟩
    · rw [hok st line key value hf hb, h1]
      simp
    · rw [hok st line key value hf hb, h1, h2]
      simp
    · rw [hok st line key value hf hb, h1, h2, h3]
      simp
  · intro lines st line key value hparse hf hb h1 h2 h3
    unfold parse_design_file at hparse ⊢
    rw [List.foldlM_append, hparse, exceptBind_ok, List.foldlM_cons,
      hok st line key value hf hb, h1, h2, h3]
    simp only [Bool.false_eq_true, if_false, if_pos]
    rfl

/-- Claim C10, witness. -/
theorem c10_parse_dispatch_witness :
    parseLine ⟨∅, ∅, none⟩ "foo, bar".toList = .ok ⟨∅, ∅, none⟩ ∧
      parseLine ⟨∅, ∅, none⟩ "ori_site, X".toList =
        .ok ⟨insert "X".toList ∅, ∅, none⟩ ∧
      parse_design_file ["ori_type, A".toList, "ori_type, B".toList] =
        .ok ⟨∅, ∅, some "B".toList⟩ :=
  ⟨c10_parse_dispatch.1 ⟨∅, ∅, none⟩ "foo, bar".toList "foo".toList "bar".toList
      (by decide) (by decide) (by decide) (by decide) (by decide),
    (c10_parse_dispatch.2.1 ⟨∅, ∅, none⟩ "ori_site, X".toList "ori_site".toList "X".toList
      (by decide) (by decide)).1 (by decide),
    c10_parse_dispatch.2.2 ["ori_type, A".toList] ⟨∅, ∅, some "A".toList⟩
      "ori_type, B".toList "ori_type".toList "B".toList rfl (by decide)
      (by decide) (by decide) (by decide) (by decide)⟩

end Plasmid
